import Mathlib

/-!
Verification of the pingheat sample-processing pipeline.

A shallow embedding of the core of the `pingheat` repository
(metrics engine, percentile calculator, ring buffer, Windows line
parser, distributor loop body) together with proofs and refutations
of the specification's claims about it.

Modelling conventions:
* `time.Duration` (an `int64` count of nanoseconds) is modelled as `Int`.
  Go's integer division on durations truncates toward zero, which is
  `Int.tdiv`.
* `time.Time` is modelled as an `Int` count of nanoseconds; the zero
  `time.Time` value is modelled by `0` (`IsZero` becomes `= 0`).
* `float64` fields are modelled as `ℚ` with exact arithmetic; the
  conversion `float64 → int64` (used by Go's `time.Duration(x)` on a
  float) truncates toward zero and is modelled by `ratTrunc`.
* `math.Sqrt` is modelled by a deterministic computable rational
  approximation `floatSqrt`; the theorems below use only that it is a
  function of its argument.
* Mutation is modelled by explicit state passing: each method on a Go
  struct becomes a Lean function from the old state to the new state.
* The wall clock (`time.Now()`, `time.Since`) is modelled by passing the
  current instant as an explicit `now : Int` argument.
-/

namespace Pingheat

/-- Go `d.Microseconds()` for a duration in nanoseconds:
`int64` division by 1000, truncating toward zero. -/
def goMicroseconds (d : Int) : Int := Int.tdiv d 1000

/-- Truncation of a rational toward zero, modelling Go's `float64 → int64`
conversion (`time.Duration(x)` on a float, `int(rank)`, ...). -/
def ratTrunc (q : ℚ) : Int := Int.tdiv q.num (q.den : Int)

/-- Deterministic computable model of `math.Sqrt` on the nonnegative
rationals (truncated to 6 decimal places).  Only its functionality
(same input, same output) is used by the theorems below. -/
def floatSqrt (q : ℚ) : ℚ :=
  if q ≤ 0 then 0 else (Nat.sqrt (ratTrunc (q * 10 ^ 12)).toNat : ℚ) / 10 ^ 6

/-- From `internal/types/sample.go`: one ping measurement.
`Timestamp` is in nanoseconds, `RTT` is a duration in nanoseconds. -/
structure Sample where
  Timestamp : Int := 0
  Sequence : Int := 0
  RTT : Int := 0
  Timeout : Bool := false
deriving Repr, DecidableEq

/-- From `internal/metrics/percentile.go`: the `PercentileCalculator` state.
The Go struct stores `values []float64` plus a `sorted` flag that merely
caches whether `values` is already in ascending order (`ensureSorted` is
called before every query, and queries depend only on the multiset of
values), so the state is modelled by the list of values in insertion
order and sorting happens inside `Percentile`. -/
abbrev PercentileCalculator := List ℚ

/-- Go `NewPercentileCalculator()`: empty value collection. -/
def NewPercentileCalculator : PercentileCalculator := ([] : List ℚ)

/-- Go `PercentileCalculator.Add`: appends `float64(rtt.Microseconds())/1000.0`
(the RTT in milliseconds) to the collection. -/
def PercentileCalculator.Add (p : PercentileCalculator) (rtt : Int) :
    PercentileCalculator :=
  (p : List ℚ) ++ [(goMicroseconds rtt : ℚ) / 1000]

/-- Go `PercentileCalculator.Count`: number of stored values. -/
def PercentileCalculator.Count (p : PercentileCalculator) : Int :=
  ((p : List ℚ).length : Int)

/-- The ascending sort performed by `ensureSorted` (`sort.Float64s`). -/
def PercentileCalculator.sortedValues (p : PercentileCalculator) : List ℚ :=
  (p : List ℚ).insertionSort (fun a b => a ≤ b)

/-- Go `PercentileCalculator.Percentile`: empty collection returns 0;
`pct ≤ 0` returns the first sorted value, `pct ≥ 100` the last; otherwise
linear interpolation at the fractional rank `(pct/100)·(n−1)`, with the
Go guard `upper >= len(values)` returning the last value. -/
def PercentileCalculator.Percentile (p : PercentileCalculator) (pct : ℚ) : ℚ :=
  let vals := p.sortedValues
  if vals.length = 0 then 0
  else if pct ≤ 0 then vals.getD 0 0
  else if 100 ≤ pct then vals.getD (vals.length - 1) 0
  else
    let rank : ℚ := pct / 100 * ((vals.length : ℚ) - 1)
    let lower : Nat := (ratTrunc rank).toNat
    let upper : Nat := lower + 1
    if vals.length ≤ upper then vals.getD (vals.length - 1) 0
    else vals.getD lower 0 + (rank - (lower : ℚ)) * (vals.getD upper 0 - vals.getD lower 0)

/-- The `Percentiles` struct: the four commonly queried percentiles. -/
structure Percentiles where
  P50 : ℚ := 0
  P90 : ℚ := 0
  P95 : ℚ := 0
  P99 : ℚ := 0
deriving Repr, DecidableEq

/-- Go `PercentileCalculator.GetPercentiles`: queries P50, P90, P95, P99. -/
def PercentileCalculator.GetPercentiles (p : PercentileCalculator) : Percentiles :=
  { P50 := p.Percentile 50
    P90 := p.Percentile 90
    P95 := p.Percentile 95
    P99 := p.Percentile 99 }

/-- Constant `BrownoutThresholdMs = 200` from `internal/metrics/engine.go`. -/
def BrownoutThresholdMs : ℚ := 200

/-- From `internal/metrics/engine.go`: the `Engine` running-aggregate state.
The `sync.RWMutex` serialises access and is not part of the data model. -/
structure Engine where
  totalSamples : Int := 0
  totalTimeouts : Int := 0
  minRTT : Int := 0
  maxRTT : Int := 0
  sumRTT : Int := 0
  sumRTTSquares : ℚ := 0
  lastRTT : Int := 0
  sumJitter : Int := 0
  jitterCount : Int := 0
  currentStreak : Int := 0
  longestSuccess : Int := 0
  longestTimeout : Int := 0
  percentiles : PercentileCalculator := NewPercentileCalculator
  lossBursts : Int := 0
  inTimeoutBurst : Bool := false
  brownoutSamples : Int := 0
  brownoutBursts : Int := 0
  inBrownout : Bool := false
  startTime : Int := 0
  lastSuccessTime : Int := 0
  lastTimeoutTime : Int := 0

/-- Go `NewEngine()`: fresh engine; `minRTT` starts at `math.MaxInt64` and
`startTime` at the current instant. -/
def NewEngine (now : Int) : Engine :=
  { minRTT := 9223372036854775807
    percentiles := NewPercentileCalculator
    startTime := now }

/-- Go `Engine.Add`: processes one ping sample.  The Go method is a
sequence of field mutations guarded by `if`s (with an early `return`
ending the timeout branch); it is rendered here field-wise: each field
of the result carries the expression the Go code leaves in it, and the
two reads of values written earlier in the same call (`longestTimeout`
reads the updated streak, `longestSuccess` likewise) are shared through
`let`-bound scalars. -/
def Engine.Add (e : Engine) (sample : Sample) : Engine :=
  if sample.Timeout then
    let currentStreak : Int := if e.currentStreak > 0 then -1 else e.currentStreak - 1
    { e with
      totalSamples := e.totalSamples + 1
      totalTimeouts := e.totalTimeouts + 1
      lastTimeoutTime := sample.Timestamp
      lossBursts := if !e.inTimeoutBurst then e.lossBursts + 1 else e.lossBursts
      inTimeoutBurst := if !e.inTimeoutBurst then true else e.inTimeoutBurst
      inBrownout := false
      currentStreak := currentStreak
      longestTimeout := if -currentStreak > e.longestTimeout then -currentStreak
        else e.longestTimeout }
  else
    let rtt : Int := sample.RTT
    let rttMs : ℚ := (goMicroseconds rtt : ℚ) / 1000
    let rttUs : ℚ := (goMicroseconds rtt : ℚ)
    let currentStreak : Int := if e.currentStreak < 0 then 1 else e.currentStreak + 1
    { e with
      totalSamples := e.totalSamples + 1
      lastSuccessTime := sample.Timestamp
      inTimeoutBurst := false
      brownoutSamples := if rttMs > BrownoutThresholdMs then e.brownoutSamples + 1
        else e.brownoutSamples
      brownoutBursts := if rttMs > BrownoutThresholdMs then
          (if !e.inBrownout then e.brownoutBursts + 1 else e.brownoutBursts)
        else e.brownoutBursts
      inBrownout := if rttMs > BrownoutThresholdMs then
          (if !e.inBrownout then true else e.inBrownout)
        else false
      minRTT := if rtt < e.minRTT then rtt else e.minRTT
      maxRTT := if rtt > e.maxRTT then rtt else e.maxRTT
      sumRTT := e.sumRTT + rtt
      sumRTTSquares := e.sumRTTSquares + rttUs * rttUs
      sumJitter := if e.lastRTT > 0 then
          e.sumJitter + (if rtt - e.lastRTT < 0 then -(rtt - e.lastRTT) else rtt - e.lastRTT)
        else e.sumJitter
      jitterCount := if e.lastRTT > 0 then e.jitterCount + 1 else e.jitterCount
      lastRTT := rtt
      currentStreak := currentStreak
      longestSuccess := if currentStreak > e.longestSuccess then currentStreak
        else e.longestSuccess
      percentiles := e.percentiles.Add rtt }

/-- The `Stats` snapshot struct from `internal/metrics/engine.go`. -/
structure Stats where
  TotalSamples : Int := 0
  TotalTimeouts : Int := 0
  TotalSuccess : Int := 0
  LossPercent : ℚ := 0
  AvailPercent : ℚ := 0
  MinRTT : Int := 0
  MaxRTT : Int := 0
  AvgRTT : Int := 0
  StdDev : Int := 0
  Jitter : Int := 0
  LastRTT : Int := 0
  MinRTTMs : ℚ := 0
  MaxRTTMs : ℚ := 0
  AvgRTTMs : ℚ := 0
  StdDevMs : ℚ := 0
  JitterMs : ℚ := 0
  LastRTTMs : ℚ := 0
  VarianceMs : ℚ := 0
  CurrentStreak : Int := 0
  LongestSuccess : Int := 0
  LongestTimeout : Int := 0
  Percentiles : Percentiles := {}
  LossBursts : Int := 0
  BrownoutSamples : Int := 0
  BrownoutBursts : Int := 0
  InBrownout : Bool := false
  StartTime : Int := 0
  LastSuccessTime : Int := 0
  LastTimeoutTime : Int := 0
  TimeSinceTimeout : Int := 0
  UptimeSeconds : ℚ := 0
deriving DecidableEq

/-- Go `Engine.Stats`: the snapshot computation; `now` models the instant
observed by `time.Since`.  The Go function fills a zero-initialised
`Stats` struct in guarded blocks; it is rendered field-wise: each field
carries its guarded expression (with the zero default in the unguarded
case), and the scalars the Go code computes once inside a block
(`successCount`, `lossPercent`, `meanUs`, `varianceUs`, `stdDevUs`) are
shared through `let`s. -/
def Engine.Stats (e : Engine) (now : Int) : Stats :=
  let successCount := e.totalSamples - e.totalTimeouts
  let lossPercent : ℚ := (e.totalTimeouts : ℚ) / (e.totalSamples : ℚ) * 100
  let n : ℚ := (successCount : ℚ)
  let meanUs : ℚ := (goMicroseconds e.sumRTT : ℚ) / n
  let varianceUs0 : ℚ := e.sumRTTSquares / n - meanUs * meanUs
  let varianceUs : ℚ := if varianceUs0 < 0 then 0 else varianceUs0
  let stdDevUs : ℚ := floatSqrt varianceUs
  { TotalSamples := e.totalSamples
    TotalTimeouts := e.totalTimeouts
    TotalSuccess := successCount
    CurrentStreak := e.currentStreak
    LongestSuccess := e.longestSuccess
    LongestTimeout := e.longestTimeout
    LossBursts := e.lossBursts
    BrownoutSamples := e.brownoutSamples
    BrownoutBursts := e.brownoutBursts
    InBrownout := e.inBrownout
    StartTime := e.startTime
    UptimeSeconds := ((now - e.startTime : Int) : ℚ) / 1000000000
    LossPercent := if e.totalSamples > 0 then lossPercent else 0
    AvailPercent := if e.totalSamples > 0 then 100 - lossPercent else 0
    MinRTT := if successCount > 0 then e.minRTT else 0
    MaxRTT := if successCount > 0 then e.maxRTT else 0
    AvgRTT := if successCount > 0 then Int.tdiv e.sumRTT successCount else 0
    LastRTT := if successCount > 0 then e.lastRTT else 0
    Percentiles := if successCount > 0 then e.percentiles.GetPercentiles else {}
    StdDev := if successCount > 0 then ratTrunc stdDevUs * 1000 else 0
    MinRTTMs := if successCount > 0 then (goMicroseconds e.minRTT : ℚ) / 1000 else 0
    MaxRTTMs := if successCount > 0 then (goMicroseconds e.maxRTT : ℚ) / 1000 else 0
    AvgRTTMs := if successCount > 0 then
        (goMicroseconds (Int.tdiv e.sumRTT successCount) : ℚ) / 1000 else 0
    StdDevMs := if successCount > 0 then stdDevUs / 1000 else 0
    VarianceMs := if successCount > 0 then varianceUs / 1000000 else 0
    LastRTTMs := if successCount > 0 then (goMicroseconds e.lastRTT : ℚ) / 1000 else 0
    LastSuccessTime := if successCount > 0 then e.lastSuccessTime else 0
    Jitter := if e.jitterCount > 0 then Int.tdiv e.sumJitter e.jitterCount else 0
    JitterMs := if e.jitterCount > 0 then
        (goMicroseconds (Int.tdiv e.sumJitter e.jitterCount) : ℚ) / 1000 else 0
    LastTimeoutTime := if e.lastTimeoutTime ≠ 0 then e.lastTimeoutTime else 0
    TimeSinceTimeout := if e.lastTimeoutTime ≠ 0 then now - e.lastTimeoutTime else 0 }

/-- Go `Engine.Reset`: returns the engine to its initial state with a fresh
start time. -/
def Engine.Reset (_e : Engine) (now : Int) : Engine := NewEngine now

/-- FIFO-with-overwrite on the abstract list contents: append, dropping
the oldest element when the capacity is reached. -/
def lpushF {T : Type} (cap : Nat) (ys : List T) (x : T) : List T :=
  if ys.length < cap then ys ++ [x] else ys.drop 1 ++ [x]

/-! Section: Ring buffer (`internal/buffer/ringbuffer.go`)

Go runtime panics (out-of-range slice index, integer division by zero)
are modelled by `Except GoPanic`; the guards appear in exactly the
source order of the fallible operations. -/

/-- The two Go runtime panics the ring buffer code can raise. -/
inductive GoPanic where
  | indexOutOfRange
  | divByZero
deriving Repr, DecidableEq

/-- Go slice read `l[i]`: panics when `i` is outside `[0, len(l))`. -/
def goIndex {T : Type} (l : List T) (i : Int) : Except GoPanic T :=
  if h : 0 ≤ i ∧ i < (l.length : Int) then
    .ok (l.get ⟨i.toNat, by omega⟩)
  else .error .indexOutOfRange

/-- Go slice write `l[i] = x`: panics when `i` is outside `[0, len(l))`. -/
def goSet {T : Type} (l : List T) (i : Int) (x : T) : Except GoPanic (List T) :=
  if 0 ≤ i ∧ i < (l.length : Int) then .ok (l.set i.toNat x)
  else .error .indexOutOfRange

/-- Go integer remainder `a % b`: truncated toward zero, panics on `b = 0`. -/
def goMod (a b : Int) : Except GoPanic Int :=
  if b = 0 then .error .divByZero else .ok (Int.tmod a b)

/-- Go `RingBuffer[T]`: thread-safe circular buffer (the `sync.RWMutex`
serialises access and is not part of the data model).  `head`, `count`
and `capacity` are Go `int`s. -/
structure RingBuffer (T : Type) where
  data : List T
  head : Int
  count : Int
  capacity : Int
deriving Repr, DecidableEq

/-- Go `NewRingBuffer(capacity)`: `make([]T, capacity)` zero-initialises the
backing slice, modelled by `List.replicate capacity default`. -/
def NewRingBuffer (T : Type) [Inhabited T] (capacity : Nat) : RingBuffer T :=
  { data := List.replicate capacity default
    head := 0
    count := 0
    capacity := (capacity : Int) }

/-- Go `RingBuffer.Push`: writes at `head`, advances `head` modulo the
capacity, saturates `count` at the capacity. -/
def RingBuffer.Push {T : Type} (rb : RingBuffer T) (item : T) :
    Except GoPanic (RingBuffer T) := do
  let data ← goSet rb.data rb.head item
  let head ← goMod (rb.head + 1) rb.capacity
  let count := if rb.count < rb.capacity then rb.count + 1 else rb.count
  .ok { rb with data := data, head := head, count := count }

/-- Go `RingBuffer.Len`: current number of elements. -/
def RingBuffer.Len {T : Type} (rb : RingBuffer T) : Int := rb.count

/-- Go `RingBuffer.Capacity`: the fixed capacity. -/
def RingBuffer.Cap {T : Type} (rb : RingBuffer T) : Int := rb.capacity

/-- Go `RingBuffer.Get`: the `index`-th oldest element, or `(zero, false)`
when `index` is outside `[0, count)`. -/
def RingBuffer.Get {T : Type} [Inhabited T] (rb : RingBuffer T) (index : Int) :
    Except GoPanic (T × Bool) :=
  if index < 0 ∨ rb.count ≤ index then .ok (default, false)
  else do
    let start ← goMod (rb.head - rb.count + rb.capacity) rb.capacity
    let actualIndex ← goMod (start + index) rb.capacity
    let v ← goIndex rb.data actualIndex
    .ok (v, true)

/-- Go `RingBuffer.GetLast`: the most recent element, or `(zero, false)`
when empty. -/
def RingBuffer.GetLast {T : Type} [Inhabited T] (rb : RingBuffer T) :
    Except GoPanic (T × Bool) :=
  if rb.count = 0 then .ok (default, false)
  else do
    let lastIndex ← goMod (rb.head - 1 + rb.capacity) rb.capacity
    let v ← goIndex rb.data lastIndex
    .ok (v, true)

/-- Go `RingBuffer.GetRange`: elements from `start` to `end` inclusive
(0 = oldest), clamping both ends, `nil` when the range is empty. -/
def RingBuffer.GetRange {T : Type} (rb : RingBuffer T) (start end_ : Int) :
    Except GoPanic (List T) :=
  let start := if start < 0 then 0 else start
  let end_ := if rb.count ≤ end_ then rb.count - 1 else end_
  if end_ < start ∨ rb.count = 0 then .ok []
  else do
    let bufStart ← goMod (rb.head - rb.count + rb.capacity) rb.capacity
    (List.range (end_ - start + 1).toNat).mapM (fun (j : Nat) => do
      let actualIndex ← goMod (bufStart + start + (j : Int)) rb.capacity
      goIndex rb.data actualIndex)

/-- Go `RingBuffer.GetLastN`: the most recent `n` elements, oldest first,
clamping `n` to `count`, `nil` when `n ≤ 0`. -/
def RingBuffer.GetLastN {T : Type} (rb : RingBuffer T) (n : Int) :
    Except GoPanic (List T) :=
  let n := if rb.count < n then rb.count else n
  if n ≤ 0 then .ok []
  else do
    let bufStart ← goMod (rb.head - n + rb.capacity) rb.capacity
    (List.range n.toNat).mapM (fun (j : Nat) => do
      let actualIndex ← goMod (bufStart + (j : Int)) rb.capacity
      goIndex rb.data actualIndex)

/-- Go `RingBuffer.All`: every held element, oldest first. -/
def RingBuffer.All {T : Type} (rb : RingBuffer T) : Except GoPanic (List T) :=
  if rb.count = 0 then .ok []
  else do
    let start ← goMod (rb.head - rb.count + rb.capacity) rb.capacity
    (List.range rb.count.toNat).mapM (fun (j : Nat) => do
      let actualIndex ← goMod (start + (j : Int)) rb.capacity
      goIndex rb.data actualIndex)

/-- Go `RingBuffer.Clear`: resets `head` and `count` without touching the
backing storage. -/
def RingBuffer.Clear {T : Type} (rb : RingBuffer T) : RingBuffer T :=
  { rb with head := 0, count := 0 }

/-- Helper `RingBuffer.PushAll`: fold `Push` over a list of items. -/
def RingBuffer.PushAll {T : Type} (rb : RingBuffer T) (items : List T) :
    Except GoPanic (RingBuffer T) :=
  items.foldlM RingBuffer.Push rb

/-- Well-formedness of a ring buffer state: established by
`NewRingBuffer` with positive capacity and preserved by every
operation. -/
def RingBuffer.WF {T : Type} (rb : RingBuffer T) : Prop :=
  1 ≤ rb.capacity ∧ 0 ≤ rb.head ∧ rb.head < rb.capacity ∧
    0 ≤ rb.count ∧ rb.count ≤ rb.capacity ∧
    (rb.data.length : Int) = rb.capacity

/-- The abstract contents of a well-formed ring buffer, oldest first:
entry `j` lives at physical position `(head - count + capacity + j)`
modulo the capacity. -/
def RingBuffer.allSpec {T : Type} [Inhabited T] (rb : RingBuffer T) : List T :=
  (List.range rb.count.toNat).map (fun (j : Nat) =>
    rb.data.getD ((rb.head - rb.count + rb.capacity + (j : Int)) % rb.capacity).toNat default)

/-- The pure effect of a successful `Push` on a well-formed state. -/
def RingBuffer.pushSpec {T : Type} (rb : RingBuffer T) (x : T) : RingBuffer T :=
  { rb with
    data := rb.data.set rb.head.toNat x
    head := (rb.head + 1) % rb.capacity
    count := if rb.count < rb.capacity then rb.count + 1 else rb.count }

/-! Section: Percentile calculator: claim-side definitions and lemmas -/

/-- Minimum of a list of values (0 on the empty list). -/
def listMin (l : List ℚ) : ℚ :=
  match l with
  | [] => 0
  | x :: xs => xs.foldl min x

/-- Maximum of a list of values (0 on the empty list). -/
def listMax (l : List ℚ) : ℚ :=
  match l with
  | [] => 0
  | x :: xs => xs.foldl max x

/-- The percentile function exactly as claim `C2` words it: 0 on an
empty collection; the minimum for `p ≤ 0`; the maximum for `p ≥ 100`;
otherwise linear interpolation between the ascending order statistics at
positions `⌊r⌋` and `⌊r⌋ + 1` where `r = (p/100)·(n−1)`. -/
def specPercentile (values : List ℚ) (pct : ℚ) : ℚ :=
  if values.length = 0 then 0
  else if pct ≤ 0 then listMin values
  else if 100 ≤ pct then listMax values
  else
    let s := values.insertionSort (fun a b => a ≤ b)
    let r : ℚ := pct / 100 * ((values.length : ℚ) - 1)
    let i : Nat := (⌊r⌋).toNat
    s.getD i 0 + (r - ((⌊r⌋ : Int) : ℚ)) * (s.getD (i + 1) 0 - s.getD i 0)

/-- A `Stats` snapshot with the two clock-derived fields blanked. -/
def Stats.eraseClock (st : Stats) : Stats :=
  { st with UptimeSeconds := 0, TimeSinceTimeout := 0 }

/-! Section: Jitter (`C4`) -/

/-- The absolute-value computation the Go code performs on a duration. -/
def goAbs (d : Int) : Int := if d < 0 then -d else d

/-- RTTs of the successful samples, in arrival order. -/
def successRTTs (samples : List Sample) : List Int :=
  (samples.filter (fun s => !s.Timeout)).map Sample.RTT

/-- The jitter deltas the engine accumulates while walking the
successful RTTs: a delta appears only when the running previous RTT is
strictly positive (initially it is 0, meaning "none yet"). -/
def deltasFrom (prev : Int) : List Int → List Int
  | [] => []
  | r :: rs => (if prev > 0 then [goAbs (r - prev)] else []) ++ deltasFrom r rs

/-- The last element of a list of RTTs, or `prev` when empty. -/
def lastFrom (prev : Int) : List Int → Int
  | [] => prev
  | r :: rs => lastFrom r rs

/-- The deltas claim `C4` describes: one `|r_i − r_{i−1}|` for every
consecutive pair of successful RTTs, regardless of the previous value. -/
def claimDeltas (rs : List Int) : List Int :=
  (rs.zip rs.tail).map (fun pr => goAbs (pr.2 - pr.1))

/-! Section: Windows parser (`internal/parser/windows.go`, claim `C8`)

The reply pattern `Reply from.*time[<=]?(\d+)\s*ms` is hand-compiled
into a backtracking matcher with Go's (RE2 / leftmost-first) semantics:
the match starts at the leftmost possible position, `.*`, `\d+` and
`\s*` are greedy (longest alternative first, backtracking on failure),
`[<=]?` tries the consuming alternative first, and the capture is the
digit group.  (`.` not matching a newline is irrelevant: the parser is
fed single lines.) -/

/-- Consume the literal `pat` from the front of `s`. -/
def stripLit : List Char → List Char → Option (List Char)
  | [], s => some s
  | _ :: _, [] => none
  | c :: cs, x :: xs => if x = c then stripLit cs xs else none

/-- Try digit groups of length `k, k−1, …, 1` (greedy `\d+`). -/
def tryDigits {α : Type} (s : List Char) (cont : List Char → List Char → Option α) :
    Nat → Option α
  | 0 => none
  | k + 1 =>
    match cont (s.take (k + 1)) (s.drop (k + 1)) with
    | some r => some r
    | none => tryDigits s cont k

/-- Try consuming `k, k−1, …, 0` whitespace characters (greedy `\s*`). -/
def tryWs {α : Type} (s : List Char) (cont : List Char → Option α) :
    Nat → Option α
  | 0 => cont s
  | k + 1 =>
    match cont (s.drop (k + 1)) with
    | some r => some r
    | none => tryWs s cont k

/-- RE2 `\s`: space, tab, newline, form feed, carriage return. -/
def isSpaceChar (c : Char) : Bool :=
  c = ' ' ∨ c = '\t' ∨ c = '\n' ∨ c = '\x0b' ∨ c = '\x0c' ∨ c = '\r'

/-- Pattern `[<=]?(\d+)\s*ms` at this position, returning the digit capture. -/
def matchTimeTail (s : List Char) : Option (List Char) :=
  let afterOpt := fun (s1 : List Char) =>
    tryDigits s1 (fun digits rest =>
      tryWs rest (fun rest2 =>
        match stripLit ['m', 's'] rest2 with
        | some _ => some digits
        | none => none) (rest.takeWhile isSpaceChar).length)
      (s1.takeWhile Char.isDigit).length
  match s with
  | c :: rest =>
    if c = '<' ∨ c = '=' then
      match afterOpt rest with
      | some d => some d
      | none => afterOpt s
    else afterOpt s
  | [] => afterOpt []

/-- Pattern `time[<=]?(\d+)\s*ms` at this position. -/
def matchTimePart (s : List Char) : Option (List Char) :=
  match stripLit ['t', 'i', 'm', 'e'] s with
  | some rest => matchTimeTail rest
  | none => none

/-- Greedy `.*`: try the latest `time…` start first, backtracking left. -/
def tryDotStar (rest : List Char) : Nat → Option (List Char)
  | 0 => matchTimePart rest
  | k + 1 =>
    match matchTimePart (rest.drop (k + 1)) with
    | some d => some d
    | none => tryDotStar rest k

/-- The whole reply pattern anchored at this position. -/
def matchReplyAt (s : List Char) : Option (List Char) :=
  match stripLit "Reply from".data s with
  | some rest => tryDotStar rest rest.length
  | none => none

/-- Go `FindStringSubmatch`: leftmost match of the reply pattern. -/
def findReply : List Char → Option (List Char)
  | [] => matchReplyAt []
  | c :: t =>
    match matchReplyAt (c :: t) with
    | some d => some d
    | none => findReply t

/-- Go `strconv.Atoi` on the captured digit group (the Go code ignores the
error return). -/
def digitsToNat (ds : List Char) : Nat :=
  ds.foldl (fun acc c => acc * 10 + (c.toNat - '0'.toNat)) 0

/-- Lower-case folding used to model the `(?i)` flag. -/
def lowerLine (s : List Char) : List Char := s.map Char.toLower

/-- Does `pat` occur as a contiguous substring of the list? -/
def containsSub (pat : List Char) : List Char → Bool
  | [] => (stripLit pat []).isSome
  | c :: t => if (stripLit pat (c :: t)).isSome then true else containsSub pat t

/-- The remainder after the first occurrence of `pat`, if any. -/
def afterSub (pat : List Char) : List Char → Option (List Char)
  | [] => stripLit pat []
  | c :: t =>
    match stripLit pat (c :: t) with
    | some r => some r
    | none => afterSub pat t

/-- The timeout pattern
`(?i)request timed out|destination.*unreachable|transmit failed|general failure`,
case-folded. -/
def timeoutMatch (line : List Char) : Bool :=
  let l := lowerLine line
  containsSub "request timed out".data l ||
    (match afterSub "destination".data l with
     | some r => containsSub "unreachable".data r
     | none => false) ||
    containsSub "transmit failed".data l ||
    containsSub "general failure".data l

/-- The `Windows` parser state: the synthetic sequence counter. -/
structure Windows where
  seqCounter : Int := 0
deriving Repr, DecidableEq

/-- Go `Windows.ParseLine`: reply lines produce a successful sample with
`RTT = ms · time.Millisecond` and an incremented synthetic sequence
number; timeout-vocabulary lines produce a timeout sample; anything
else is unmatched.  `now` models `time.Now()`, and the updated parser
state is returned alongside the Go results. -/
def Windows.ParseLine (p : Windows) (now : Int) (line : List Char) :
    Windows × Sample × Bool :=
  match findReply line with
  | some digits =>
    let ms : Nat := digitsToNat digits
    ({ seqCounter := p.seqCounter + 1 },
      { Timestamp := now, Sequence := p.seqCounter + 1,
        RTT := (ms : Int) * 1000000, Timeout := false }, true)
  | none =>
    if timeoutMatch line then
      ({ seqCounter := p.seqCounter + 1 },
        { Timestamp := now, Sequence := p.seqCounter + 1,
          RTT := 0, Timeout := true }, true)
    else (p, {}, false)

/-! Section: Distributor (`App.distribute` in `internal/app/app.go`, claim `C9`) -/

/-- A buffered Go channel with no ready receiver: the pending values
and the buffer capacity. -/
structure Chan (α : Type) where
  buf : List α
  cap : Nat
deriving Repr, DecidableEq

/-- A `select { case ch <- v: default: }` non-blocking send: enqueue
when the buffer has room, otherwise drop the value. -/
def Chan.trySend {α : Type} (c : Chan α) (x : α) : Chan α :=
  if c.buf.length < c.cap then { c with buf := c.buf ++ [x] } else c

/-- The distributor's state: the two outbound channels, the engine, and
the synchronous exporter (modelled by the list of `Update` calls it has
received; `exporterEnabled` mirrors `a.exporter != nil`). -/
structure AppState where
  uiSamples : Chan Sample
  metricsOut : Chan Stats
  engine : Engine
  exporterEnabled : Bool
  exporterUpdates : List Stats

/-- One iteration of `App.distribute`'s receive loop for one sample:
non-blocking send to the UI channel, synchronous `engine.Add`, then
`engine.Stats`, non-blocking send of the snapshot to the metrics
channel, and a synchronous exporter `Update` if configured. -/
def App.distributeStep (st : AppState) (sample : Sample) (now : Int) : AppState :=
  let uiSamples := st.uiSamples.trySend sample
  let engine := st.engine.Add sample
  let stats := engine.Stats now
  let metricsOut := st.metricsOut.trySend stats
  let exporterUpdates :=
    if st.exporterEnabled then st.exporterUpdates ++ [stats] else st.exporterUpdates
  { uiSamples := uiSamples
    metricsOut := metricsOut
    engine := engine
    exporterEnabled := st.exporterEnabled
    exporterUpdates := exporterUpdates }

/-! Theorems: claim verdicts and supporting lemmas. -/

theorem RingBuffer.length_allSpec {T : Type} [Inhabited T] (rb : RingBuffer T) :
    rb.allSpec.length = rb.count.toNat := by
  rw [RingBuffer.allSpec, List.length_map, List.length_range]

theorem emod_window (a b : Int) (h0 : 0 ≤ a) (hb : 0 < b) (h2 : a < 2 * b) :
    a % b = if a < b then a else a - b := by
  have hb2 : (0:Int) ≤ b := le_of_lt hb
  by_cases h : a < b
  · rw [if_pos h, Int.emod_eq_of_lt h0 h]
  · rw [if_neg h]
    have e : a % b = (a - b + b * 1) % b := by congr 1; ring
    rw [e, Int.add_mul_emod_self_left]
    exact Int.emod_eq_of_lt (by omega) (by omega)

theorem emod_add_left (a j c : Int) : (a % c + j) % c = (a + j) % c := by
  rw [Int.emod_def a c]
  have e : a - c * (a / c) + j = a + j + c * (-(a / c)) := by ring
  rw [e, Int.add_mul_emod_self_left]

theorem mapM_ok {α β : Type} {f : α → Except GoPanic β} {g : α → β} :
    ∀ l : List α, (∀ x ∈ l, f x = .ok (g x)) → l.mapM f = .ok (l.map g) := by
  intro l
  induction l with
  | nil => intro _; rfl
  | cons a t ih =>
    intro h
    rw [List.mapM_cons, h a (by simp), ih (fun x hx => h x (by simp [hx]))]
    rfl

theorem mapM_isOk {α β : Type} {f : α → Except GoPanic β} :
    ∀ l : List α, (∀ x ∈ l, ∃ y, f x = .ok y) → ∃ r, l.mapM f = .ok r := by
  intro l
  induction l with
  | nil => intro _; exact ⟨[], rfl⟩
  | cons a t ih =>
    intro h
    obtain ⟨y, hy⟩ := h a (by simp)
    obtain ⟨r, hr⟩ := ih (fun x hx => h x (by simp [hx]))
    exact ⟨y :: r, by rw [List.mapM_cons, hy, hr]; rfl⟩

theorem goMod_ok (a b : Int) (h0 : 0 ≤ a) (hb : 0 < b) :
    goMod a b = .ok (a % b) := by
  have hbne : b ≠ 0 := by omega
  rw [goMod, if_neg hbne, Int.tmod_eq_emod h0 (by omega)]

theorem goIndex_ok {T : Type} (l : List T) (i : Int) (h0 : 0 ≤ i)
    (h1 : i < (l.length : Int)) [Inhabited T] :
    goIndex l i = .ok (l.getD i.toNat default) := by
  rw [goIndex, dif_pos ⟨h0, h1⟩]
  congr 1
  rw [List.getD_eq_getElem l default (by omega)]
  simp [List.get_eq_getElem]

/-- Operation `All` returns the abstract contents on well-formed states. -/
theorem RingBuffer.All_eq_allSpec {T : Type} [Inhabited T] (rb : RingBuffer T)
    (h : rb.WF) : rb.All = .ok rb.allSpec := by
  obtain ⟨hc, hh0, hhc, hn0, hnc, hlen⟩ := h
  by_cases h0 : rb.count = 0
  · simp [RingBuffer.All, RingBuffer.allSpec, h0]
  · have hs0 : 0 ≤ (rb.head - rb.count + rb.capacity) % rb.capacity :=
      Int.emod_nonneg _ (by omega)
    have hmap : (List.range rb.count.toNat).mapM
        (fun (j : Nat) => do
          let actualIndex ← goMod
            ((rb.head - rb.count + rb.capacity) % rb.capacity + (j : Int)) rb.capacity
          goIndex rb.data actualIndex) =
        .ok ((List.range rb.count.toNat).map (fun (j : Nat) =>
          rb.data.getD
            ((rb.head - rb.count + rb.capacity + (j : Int)) % rb.capacity).toNat default)) := by
      apply mapM_ok
      intro j hj
      rw [goMod_ok ((rb.head - rb.count + rb.capacity) % rb.capacity + (j : Int))
        rb.capacity (by omega) (by omega), emod_add_left]
      have hi0 : 0 ≤ (rb.head - rb.count + rb.capacity + (j : Int)) % rb.capacity :=
        Int.emod_nonneg _ (by omega)
      have hic : (rb.head - rb.count + rb.capacity + (j : Int)) % rb.capacity <
          rb.capacity := Int.emod_lt_of_pos _ (by omega)
      exact goIndex_ok rb.data _ hi0 (by omega)
    rw [RingBuffer.All, if_neg h0,
      goMod_ok (rb.head - rb.count + rb.capacity) rb.capacity (by omega) (by omega)]
    exact hmap

theorem foldl_lpushF {T : Type} (cap : Nat) (hcap : 1 ≤ cap) :
    ∀ (xs ys : List T), ys.length ≤ cap →
      xs.foldl (lpushF cap) ys = (ys ++ xs).drop ((ys ++ xs).length - cap) := by
  intro xs
  induction xs with
  | nil =>
    intro ys hys
    simp only [List.foldl_nil, List.append_nil]
    rw [show ys.length - cap = 0 from by omega, List.drop_zero]
  | cons x t ih =>
    intro ys hys
    rw [List.foldl_cons]
    by_cases hlt : ys.length < cap
    · rw [show lpushF cap ys x = ys ++ [x] from by rw [lpushF, if_pos hlt]]
      rw [ih (ys ++ [x]) (by simp only [List.length_append, List.length_cons, List.length_nil]; omega)]
      have e : (ys ++ [x]) ++ t = ys ++ x :: t := by
        rw [List.append_assoc, List.singleton_append]
      rw [e]
    · rw [show lpushF cap ys x = ys.drop 1 ++ [x] from by rw [lpushF, if_neg hlt]]
      rw [ih (ys.drop 1 ++ [x]) (by simp only [List.length_append, List.length_drop, List.length_cons, List.length_nil]; omega)]
      have e : (ys.drop 1 ++ [x]) ++ t = (ys ++ x :: t).drop 1 := by
        rw [List.drop_append_eq_append_drop]
        rw [show 1 - ys.length = 0 from by omega, List.drop_zero]
        rw [List.append_assoc, List.singleton_append]
      rw [e, List.drop_drop]
      congr 1
      simp only [List.length_drop, List.length_append, List.length_cons]
      omega

theorem RingBuffer.Push_eq {T : Type} (rb : RingBuffer T) (x : T) (h : rb.WF) :
    rb.Push x = .ok (rb.pushSpec x) ∧ (rb.pushSpec x).WF := by
  obtain ⟨hc, hh0, hhc, hn0, hnc, hlen⟩ := h
  constructor
  · rw [RingBuffer.Push, goSet, if_pos ⟨hh0, by omega⟩,
      goMod_ok (rb.head + 1) rb.capacity (by omega) (by omega)]
    rfl
  · refine ⟨hc, Int.emod_nonneg _ (by omega), Int.emod_lt_of_pos _ (by omega),
      by dsimp [pushSpec]; split <;> omega,
      by dsimp [pushSpec]; split <;> omega, ?_⟩
    simp [pushSpec, hlen]

/-- Pushing acts on the abstract contents as `lpushF`: append, evicting
the oldest element when full. -/
theorem RingBuffer.allSpec_pushSpec {T : Type} [Inhabited T]
    (rb : RingBuffer T) (x : T) (h : rb.WF) :
    (rb.pushSpec x).allSpec =
      if rb.count < rb.capacity then rb.allSpec ++ [x]
      else rb.allSpec.drop 1 ++ [x] := by
  obtain ⟨hc, hh0, hhc, hn0, hnc, hlen⟩ := h
  by_cases hfull : rb.count < rb.capacity
  · rw [if_pos hfull]
    apply List.ext_getElem
    · rw [RingBuffer.length_allSpec, List.length_append, RingBuffer.length_allSpec]
      simp only [RingBuffer.pushSpec, if_pos hfull, List.length_cons, List.length_nil]
      omega
    · intro p hp1 hp2
      rw [RingBuffer.length_allSpec] at hp1
      have hpn1 : (p : Int) < rb.count + 1 := by
        simp only [RingBuffer.pushSpec, if_pos hfull] at hp1; omega
      simp only [RingBuffer.allSpec, List.getElem_map, List.getElem_range]
      simp only [RingBuffer.pushSpec, if_pos hfull]
      have e1 : (rb.head + 1) % rb.capacity - (rb.count + 1) + rb.capacity + (p : Int) =
          (rb.head + 1) % rb.capacity + (-(rb.count + 1) + rb.capacity + (p : Int)) := by ring
      rw [e1, emod_add_left]
      have e2 : rb.head + 1 + (-(rb.count + 1) + rb.capacity + (p : Int)) =
          rb.head - rb.count + rb.capacity + (p : Int) := by ring
      rw [e2]
      have hw : (rb.head - rb.count + rb.capacity + (p : Int)) % rb.capacity =
          if rb.head - rb.count + rb.capacity + (p : Int) < rb.capacity then
            rb.head - rb.count + rb.capacity + (p : Int)
          else rb.head - rb.count + rb.capacity + (p : Int) - rb.capacity :=
        emod_window _ _ (by omega) (by omega) (by omega)
      have hi0 : 0 ≤ (rb.head - rb.count + rb.capacity + (p : Int)) % rb.capacity :=
        Int.emod_nonneg _ (by omega)
      have hic : (rb.head - rb.count + rb.capacity + (p : Int)) % rb.capacity <
          rb.capacity := Int.emod_lt_of_pos _ (by omega)
      rw [List.getD_eq_getElem _ _ (by rw [List.length_set]; omega), List.getElem_set]
      by_cases hlast : p < rb.count.toNat
      · rw [List.getElem_append_left
          (by simp only [List.length_map, List.length_range]; omega)]
        simp only [List.getElem_map, List.getElem_range]
        rw [List.getD_eq_getElem _ _ (by omega)]
        rw [if_neg (by rw [hw]; split <;> omega)]
      · rw [List.getElem_append_right
          (by simp only [List.length_map, List.length_range]; omega)]
        rw [if_pos (by rw [hw]; split <;> omega)]
        simp
  · have hcnt : rb.count = rb.capacity := by omega
    rw [if_neg hfull]
    apply List.ext_getElem
    · rw [RingBuffer.length_allSpec, List.length_append, List.length_drop,
        RingBuffer.length_allSpec]
      simp only [RingBuffer.pushSpec, if_neg hfull, List.length_cons, List.length_nil]
      omega
    · intro p hp1 hp2
      rw [RingBuffer.length_allSpec] at hp1
      have hpn1 : (p : Int) < rb.count := by
        simp only [RingBuffer.pushSpec, if_neg hfull] at hp1; omega
      simp only [RingBuffer.allSpec, List.getElem_map, List.getElem_range]
      simp only [RingBuffer.pushSpec, if_neg hfull]
      have e1 : (rb.head + 1) % rb.capacity - rb.count + rb.capacity + (p : Int) =
          (rb.head + 1) % rb.capacity + (-rb.count + rb.capacity + (p : Int)) := by ring
      rw [e1, emod_add_left]
      have e2 : rb.head + 1 + (-rb.count + rb.capacity + (p : Int)) =
          rb.head - rb.count + rb.capacity + ((p : Int) + 1) := by ring
      rw [e2]
      have hw : (rb.head - rb.count + rb.capacity + ((p : Int) + 1)) % rb.capacity =
          if rb.head - rb.count + rb.capacity + ((p : Int) + 1) < rb.capacity then
            rb.head - rb.count + rb.capacity + ((p : Int) + 1)
          else rb.head - rb.count + rb.capacity + ((p : Int) + 1) - rb.capacity :=
        emod_window _ _ (by omega) (by omega) (by omega)
      have hi0 : 0 ≤ (rb.head - rb.count + rb.capacity + ((p : Int) + 1)) % rb.capacity :=
        Int.emod_nonneg _ (by omega)
      have hic : (rb.head - rb.count + rb.capacity + ((p : Int) + 1)) % rb.capacity <
          rb.capacity := Int.emod_lt_of_pos _ (by omega)
      rw [List.getD_eq_getElem _ _ (by rw [List.length_set]; omega), List.getElem_set]
      by_cases hlast : p < rb.count.toNat - 1
      · rw [List.getElem_append_left
          (by simp only [List.length_drop, List.length_map, List.length_range]; omega)]
        rw [List.getElem_drop]
        simp only [List.getElem_map, List.getElem_range]
        have ecast : ((1 + p : Nat) : Int) = (p : Int) + 1 := by push_cast; ring
        rw [ecast]
        rw [List.getD_eq_getElem _ _ (by omega)]
        rw [if_neg (by rw [hw]; split <;> omega)]
      · rw [List.getElem_append_right
          (by simp only [List.length_drop, List.length_map, List.length_range]; omega)]
        rw [if_pos (by rw [hw]; split <;> omega)]
        simp

/-- Claim `C1`: for every sequence of samples added since creation (or since a
reset, which restores the creation state), the snapshot after every add
satisfies `TotalSamples = TotalTimeouts + TotalSuccess`. -/
theorem C1_total_samples_split (start now : Int) (samples : List Sample) :
    ((samples.foldl Engine.Add (NewEngine start)).Stats now).TotalSamples =
      ((samples.foldl Engine.Add (NewEngine start)).Stats now).TotalTimeouts +
      ((samples.foldl Engine.Add (NewEngine start)).Stats now).TotalSuccess := by
  set e := samples.foldl Engine.Add (NewEngine start) with he
  show (e.Stats now).TotalSamples =
    (e.Stats now).TotalTimeouts + (e.Stats now).TotalSuccess
  unfold Engine.Stats
  dsimp only
  ring

theorem RingBuffer.allSpec_pushSpec_lpushF {T : Type} [Inhabited T]
    (rb : RingBuffer T) (x : T) (h : rb.WF) :
    (rb.pushSpec x).allSpec = lpushF rb.capacity.toNat rb.allSpec x := by
  rw [RingBuffer.allSpec_pushSpec rb x h, lpushF]
  obtain ⟨hc, hh0, hhc, hn0, hnc, hlen⟩ := h
  rw [RingBuffer.length_allSpec]
  by_cases hfull : rb.count < rb.capacity
  · rw [if_pos hfull, if_pos (by omega)]
  · rw [if_neg hfull, if_neg (by omega)]

theorem RingBuffer.PushAll_ok {T : Type} [Inhabited T] :
    ∀ (xs : List T) (rb : RingBuffer T), rb.WF →
      ∃ rb', rb.PushAll xs = .ok rb' ∧ rb'.WF ∧ rb'.capacity = rb.capacity ∧
        rb'.allSpec = xs.foldl (lpushF rb.capacity.toNat) rb.allSpec := by
  intro xs
  induction xs with
  | nil => intro rb h; exact ⟨rb, rfl, h, rfl, rfl⟩
  | cons x t ih =>
    intro rb h
    obtain ⟨hpush, hwf⟩ := RingBuffer.Push_eq rb x h
    obtain ⟨rb', h1, h2, h3, h4⟩ := ih (rb.pushSpec x) hwf
    have hcap : (rb.pushSpec x).capacity = rb.capacity := rfl
    refine ⟨rb', ?_, h2, by rw [h3, hcap], ?_⟩
    · rw [RingBuffer.PushAll, List.foldlM_cons, hpush]
      exact h1
    · rw [h4, hcap, List.foldl_cons,
        RingBuffer.allSpec_pushSpec_lpushF rb x ⟨h.1, h.2.1, h.2.2.1, h.2.2.2.1,
          h.2.2.2.2.1, h.2.2.2.2.2⟩]

theorem ok_bind {α β : Type} (a : α) (f : α → Except GoPanic β) :
    (Except.ok a >>= f) = f a := rfl

theorem NewRingBuffer_WF {T : Type} [Inhabited T] (c : Nat) (hc : 1 ≤ c) :
    (NewRingBuffer T c).WF := by
  unfold RingBuffer.WF NewRingBuffer
  dsimp only
  rw [List.length_replicate]
  omega

theorem RingBuffer.Get_ok {T : Type} [Inhabited T] (rb : RingBuffer T)
    (h : rb.WF) (index : Int) : ∃ v, rb.Get index = .ok v := by
  obtain ⟨hc, hh0, hhc, hn0, hnc, hlen⟩ := h
  rw [RingBuffer.Get]
  by_cases hcond : index < 0 ∨ rb.count ≤ index
  · rw [if_pos hcond]; exact ⟨(default, false), rfl⟩
  · rw [if_neg hcond,
      goMod_ok (rb.head - rb.count + rb.capacity) rb.capacity (by omega) (by omega)]
    simp only [ok_bind]
    have hb0 : 0 ≤ (rb.head - rb.count + rb.capacity) % rb.capacity :=
      Int.emod_nonneg _ (by omega)
    rw [goMod_ok ((rb.head - rb.count + rb.capacity) % rb.capacity + index)
      rb.capacity (by omega) (by omega)]
    simp only [ok_bind]
    have hi0 : 0 ≤ ((rb.head - rb.count + rb.capacity) % rb.capacity + index) %
        rb.capacity := Int.emod_nonneg _ (by omega)
    have hic : ((rb.head - rb.count + rb.capacity) % rb.capacity + index) %
        rb.capacity < rb.capacity := Int.emod_lt_of_pos _ (by omega)
    rw [goIndex_ok rb.data _ hi0 (by omega)]
    exact ⟨_, rfl⟩

theorem RingBuffer.GetLast_ok {T : Type} [Inhabited T] (rb : RingBuffer T)
    (h : rb.WF) : ∃ v, rb.GetLast = .ok v := by
  obtain ⟨hc, hh0, hhc, hn0, hnc, hlen⟩ := h
  rw [RingBuffer.GetLast]
  by_cases hcond : rb.count = 0
  · rw [if_pos hcond]; exact ⟨(default, false), rfl⟩
  · rw [if_neg hcond,
      goMod_ok (rb.head - 1 + rb.capacity) rb.capacity (by omega) (by omega)]
    simp only [ok_bind]
    have hi0 : 0 ≤ (rb.head - 1 + rb.capacity) % rb.capacity :=
      Int.emod_nonneg _ (by omega)
    have hic : (rb.head - 1 + rb.capacity) % rb.capacity < rb.capacity :=
      Int.emod_lt_of_pos _ (by omega)
    rw [goIndex_ok rb.data _ hi0 (by omega)]
    exact ⟨_, rfl⟩

theorem RingBuffer.GetRange_ok {T : Type} [Inhabited T] (rb : RingBuffer T)
    (h : rb.WF) (start end_ : Int) : ∃ l, rb.GetRange start end_ = .ok l := by
  obtain ⟨hc, hh0, hhc, hn0, hnc, hlen⟩ := h
  rw [RingBuffer.GetRange]
  by_cases hcond : (if rb.count ≤ end_ then rb.count - 1 else end_) <
      (if start < 0 then 0 else start) ∨ rb.count = 0
  · rw [if_pos hcond]; exact ⟨[], rfl⟩
  · rw [if_neg hcond,
      goMod_ok (rb.head - rb.count + rb.capacity) rb.capacity (by omega) (by omega)]
    simp only [ok_bind]
    have hb0 : 0 ≤ (rb.head - rb.count + rb.capacity) % rb.capacity :=
      Int.emod_nonneg _ (by omega)
    have hs0 : 0 ≤ (if start < 0 then 0 else start) := by split <;> omega
    apply mapM_isOk
    intro j hj
    rw [goMod_ok ((rb.head - rb.count + rb.capacity) % rb.capacity +
      (if start < 0 then 0 else start) + (j : Int)) rb.capacity (by omega) (by omega)]
    simp only [ok_bind]
    have hi0 : 0 ≤ ((rb.head - rb.count + rb.capacity) % rb.capacity +
        (if start < 0 then 0 else start) + (j : Int)) % rb.capacity :=
      Int.emod_nonneg _ (by omega)
    have hic : ((rb.head - rb.count + rb.capacity) % rb.capacity +
        (if start < 0 then 0 else start) + (j : Int)) % rb.capacity < rb.capacity :=
      Int.emod_lt_of_pos _ (by omega)
    rw [goIndex_ok rb.data _ hi0 (by omega)]
    exact ⟨_, rfl⟩

theorem RingBuffer.GetLastN_ok {T : Type} [Inhabited T] (rb : RingBuffer T)
    (h : rb.WF) (n : Int) : ∃ l, rb.GetLastN n = .ok l := by
  obtain ⟨hc, hh0, hhc, hn0, hnc, hlen⟩ := h
  rw [RingBuffer.GetLastN]
  by_cases hcond : (if rb.count < n then rb.count else n) ≤ 0
  · rw [if_pos hcond]; exact ⟨[], rfl⟩
  · rw [if_neg hcond,
      goMod_ok (rb.head - (if rb.count < n then rb.count else n) + rb.capacity)
        rb.capacity (by split <;> omega) (by omega)]
    simp only [ok_bind]
    have hb0 : 0 ≤ (rb.head - (if rb.count < n then rb.count else n) + rb.capacity) %
        rb.capacity := Int.emod_nonneg _ (by omega)
    apply mapM_isOk
    intro j hj
    rw [goMod_ok ((rb.head - (if rb.count < n then rb.count else n) + rb.capacity) %
      rb.capacity + (j : Int)) rb.capacity (by omega) (by omega)]
    simp only [ok_bind]
    have hi0 : 0 ≤ ((rb.head - (if rb.count < n then rb.count else n) + rb.capacity) %
        rb.capacity + (j : Int)) % rb.capacity := Int.emod_nonneg _ (by omega)
    have hic : ((rb.head - (if rb.count < n then rb.count else n) + rb.capacity) %
        rb.capacity + (j : Int)) % rb.capacity < rb.capacity :=
      Int.emod_lt_of_pos _ (by omega)
    rw [goIndex_ok rb.data _ hi0 (by omega)]
    exact ⟨_, rfl⟩

theorem RingBuffer.Clear_WF {T : Type} (rb : RingBuffer T) (h : rb.WF) :
    rb.Clear.WF := by
  obtain ⟨hc, hh0, hhc, hn0, hnc, hlen⟩ := h
  unfold RingBuffer.Clear RingBuffer.WF
  dsimp only
  omega

/-- Claim `C6`: pushing `capacity + k` items (`k > 0`) into a buffer of
capacity `c ≥ 1` leaves exactly the last `c` items, oldest first, and
`Len` returns the capacity. -/
theorem C6_ringbuffer_overflow {T : Type} [Inhabited T] (c k : Nat) (xs : List T)
    (hc : 1 ≤ c) (hk : 0 < k) (hxs : xs.length = c + k) :
    ∃ rb, (NewRingBuffer T c).PushAll xs = .ok rb ∧
      rb.All = .ok (xs.drop k) ∧ rb.Len = (c : Int) := by
  have hwf : (NewRingBuffer T c).WF := NewRingBuffer_WF c hc
  obtain ⟨rb, h1, h2, h3, h4⟩ := RingBuffer.PushAll_ok xs (NewRingBuffer T c) hwf
  have hempty : (NewRingBuffer T c).allSpec = [] := by
    simp [RingBuffer.allSpec, NewRingBuffer]
  have hcapN : (NewRingBuffer T c).capacity.toNat = c := by
    simp [NewRingBuffer]
  rw [hempty, hcapN] at h4
  rw [foldl_lpushF c hc xs [] (by simp), List.nil_append] at h4
  rw [hxs, show c + k - c = k from by omega] at h4
  refine ⟨rb, h1, ?_, ?_⟩
  · rw [RingBuffer.All_eq_allSpec rb h2, h4]
  · have hlenspec := RingBuffer.length_allSpec rb
    rw [h4, List.length_drop, hxs] at hlenspec
    obtain ⟨_, _, _, hcnt0, _, _⟩ := h2
    rw [RingBuffer.Len]
    omega

theorem C6_ringbuffer_overflow_witness :
    ∃ rb, (NewRingBuffer Int 2).PushAll [5, 6, 7] = .ok rb ∧
      rb.All = .ok [6, 7] ∧ rb.Len = (2 : Int) :=
  C6_ringbuffer_overflow 2 1 [5, 6, 7] (by decide) (by decide) (by decide)

/-- Claim `C10` (amended): on every buffer created with positive capacity and
every reachable state, all operations return without panicking; a buffer
created with capacity 0 panics on the first `Push` — with an
out-of-range index into the empty backing slice (the write `data[head]`
precedes the modulo, so the modulo-by-zero is never reached). -/
theorem C10_ringbuffer_totality (T : Type) [Inhabited T] :
    (∀ c : Nat, 1 ≤ c → (NewRingBuffer T c).WF) ∧
    (∀ rb : RingBuffer T, rb.WF →
      (∀ x, rb.Push x = .ok (rb.pushSpec x) ∧ (rb.pushSpec x).WF) ∧
      (∀ i, ∃ v, rb.Get i = .ok v) ∧
      (∃ v, rb.GetLast = .ok v) ∧
      (∀ s e, ∃ l, rb.GetRange s e = .ok l) ∧
      (∀ n, ∃ l, rb.GetLastN n = .ok l) ∧
      (∃ l, rb.All = .ok l) ∧
      rb.Clear.WF) ∧
    (∀ x : T, (NewRingBuffer T 0).Push x = .error .indexOutOfRange) := by
  refine ⟨NewRingBuffer_WF, fun rb h => ⟨fun x => RingBuffer.Push_eq rb x h,
    RingBuffer.Get_ok rb h, RingBuffer.GetLast_ok rb h,
    RingBuffer.GetRange_ok rb h, RingBuffer.GetLastN_ok rb h,
    ⟨rb.allSpec, RingBuffer.All_eq_allSpec rb h⟩, RingBuffer.Clear_WF rb h⟩,
    fun x => ?_⟩
  rw [RingBuffer.Push, goSet]
  rw [if_neg (by simp [NewRingBuffer])]
  rfl

theorem C10_ringbuffer_totality_witness :
    (NewRingBuffer Int 1).WF ∧
      (∃ v, (NewRingBuffer Int 1).Get 0 = .ok v) ∧
      (NewRingBuffer Int 0).Push 7 = .error .indexOutOfRange := by
  obtain ⟨h1, h2, h3⟩ := C10_ringbuffer_totality Int
  exact ⟨h1 1 (by decide),
    (h2 (NewRingBuffer Int 1) (h1 1 (by decide))).2.1 0, h3 7⟩

/-- Claim `C10` as stated is false: the capacity-0 `Push` panic is an
out-of-range slice index, not the claimed modulo by zero. -/
theorem C10_ringbuffer_counterexample :
    (NewRingBuffer Int 0).Push 7 = .error .indexOutOfRange ∧
      GoPanic.indexOutOfRange ≠ GoPanic.divByZero := by
  constructor
  · rfl
  · decide

theorem foldl_min_le_init (xs : List ℚ) : ∀ a : ℚ, xs.foldl min a ≤ a := by
  induction xs with
  | nil => intro a; simp
  | cons x t ih =>
    intro a
    calc (x :: t).foldl min a = t.foldl min (min a x) := by rw [List.foldl_cons]
    _ ≤ min a x := ih (min a x)
    _ ≤ a := min_le_left a x

theorem foldl_min_le_mem (xs : List ℚ) :
    ∀ a : ℚ, ∀ x ∈ xs, xs.foldl min a ≤ x := by
  induction xs with
  | nil => intro a x hx; simp at hx
  | cons y t ih =>
    intro a x hx
    rw [List.foldl_cons]
    rcases List.mem_cons.mp hx with rfl | hx'
    · calc t.foldl min (min a x) ≤ min a x := foldl_min_le_init t (min a x)
      _ ≤ x := min_le_right a x
    · exact ih (min a y) x hx'

theorem foldl_min_mem (xs : List ℚ) : ∀ a : ℚ, xs.foldl min a ∈ a :: xs := by
  induction xs with
  | nil => intro a; simp
  | cons x t ih =>
    intro a
    rw [List.foldl_cons]
    have h := ih (min a x)
    rcases List.mem_cons.mp h with he | hm
    · rcases min_choice a x with h1 | h1
      · rw [he, h1]; exact List.mem_cons_self a (x :: t)
      · rw [he, h1]; exact List.mem_cons.mpr (Or.inr (List.mem_cons_self x t))
    · exact List.mem_cons.mpr (Or.inr (List.mem_cons.mpr (Or.inr hm)))

theorem foldl_max_init_le (xs : List ℚ) : ∀ a : ℚ, a ≤ xs.foldl max a := by
  induction xs with
  | nil => intro a; simp
  | cons x t ih =>
    intro a
    calc a ≤ max a x := le_max_left a x
    _ ≤ t.foldl max (max a x) := ih (max a x)
    _ = (x :: t).foldl max a := by rw [List.foldl_cons]

theorem foldl_mem_le_max (xs : List ℚ) :
    ∀ a : ℚ, ∀ x ∈ xs, x ≤ xs.foldl max a := by
  induction xs with
  | nil => intro a x hx; simp at hx
  | cons y t ih =>
    intro a x hx
    rw [List.foldl_cons]
    rcases List.mem_cons.mp hx with rfl | hx'
    · calc x ≤ max a x := le_max_right a x
      _ ≤ t.foldl max (max a x) := foldl_max_init_le t (max a x)
    · exact ih (max a y) x hx'

theorem foldl_max_mem (xs : List ℚ) : ∀ a : ℚ, xs.foldl max a ∈ a :: xs := by
  induction xs with
  | nil => intro a; simp
  | cons x t ih =>
    intro a
    rw [List.foldl_cons]
    have h := ih (max a x)
    rcases List.mem_cons.mp h with he | hm
    · rcases max_choice a x with h1 | h1
      · rw [he, h1]; exact List.mem_cons_self a (x :: t)
      · rw [he, h1]; exact List.mem_cons.mpr (Or.inr (List.mem_cons_self x t))
    · exact List.mem_cons.mpr (Or.inr (List.mem_cons.mpr (Or.inr hm)))

theorem listMin_mem {l : List ℚ} (h : l ≠ []) : listMin l ∈ l := by
  cases l with
  | nil => exact absurd rfl h
  | cons x xs => exact foldl_min_mem xs x

theorem listMin_le {l : List ℚ} (_h : l ≠ []) : ∀ x ∈ l, listMin l ≤ x := by
  cases l with
  | nil => intro x hx; simp at hx
  | cons y xs =>
    intro x hx
    rcases List.mem_cons.mp hx with rfl | hx'
    · exact foldl_min_le_init xs x
    · exact foldl_min_le_mem xs y x hx'

theorem listMax_mem {l : List ℚ} (h : l ≠ []) : listMax l ∈ l := by
  cases l with
  | nil => exact absurd rfl h
  | cons x xs => exact foldl_max_mem xs x

theorem le_listMax {l : List ℚ} (_h : l ≠ []) : ∀ x ∈ l, x ≤ listMax l := by
  cases l with
  | nil => intro x hx; simp at hx
  | cons y xs =>
    intro x hx
    rcases List.mem_cons.mp hx with rfl | hx'
    · exact foldl_max_init_le xs x
    · exact foldl_mem_le_max xs y x hx'

theorem sorted_getD_mono {s : List ℚ} (hs : List.Sorted (fun a b : ℚ => a ≤ b) s)
    {i j : Nat} (hij : i ≤ j) (hj : j < s.length) : s.getD i 0 ≤ s.getD j 0 := by
  have hi : i < s.length := by omega
  rw [List.getD_eq_getElem s 0 hi, List.getD_eq_getElem s 0 hj]
  have hf : (⟨i, hi⟩ : Fin s.length) ≤ ⟨j, hj⟩ := Fin.le_def.mpr hij
  have := List.Sorted.rel_get_of_le hs hf
  simpa [List.get_eq_getElem] using this

theorem sortedValues_sorted (p : PercentileCalculator) :
    List.Sorted (fun a b : ℚ => a ≤ b) p.sortedValues :=
  List.sorted_insertionSort _ (p : List ℚ)

theorem sortedValues_perm (p : PercentileCalculator) :
    (p.sortedValues).Perm (p : List ℚ) :=
  List.perm_insertionSort _ (p : List ℚ)

theorem sorted_first_eq_listMin {l : List ℚ} (hne : l ≠ []) :
    (l.insertionSort (fun a b : ℚ => a ≤ b)).getD 0 0 = listMin l := by
  have hsort : List.Sorted (fun a b : ℚ => a ≤ b)
      (l.insertionSort (fun a b : ℚ => a ≤ b)) := List.sorted_insertionSort _ l
  have hperm : (l.insertionSort (fun a b : ℚ => a ≤ b)).Perm l :=
    List.perm_insertionSort _ l
  have hpos : 0 < (l.insertionSort (fun a b : ℚ => a ≤ b)).length := by
    rw [hperm.length_eq]
    exact List.length_pos.mpr hne
  have h0mem : (l.insertionSort (fun a b : ℚ => a ≤ b)).getD 0 0 ∈
      l.insertionSort (fun a b : ℚ => a ≤ b) := by
    rw [List.getD_eq_getElem _ 0 hpos]
    exact List.getElem_mem hpos
  apply le_antisymm
  · obtain ⟨i, hgi⟩ := List.mem_iff_get.mp (hperm.mem_iff.mpr (listMin_mem hne))
    calc (l.insertionSort (fun a b : ℚ => a ≤ b)).getD 0 0 ≤
        (l.insertionSort (fun a b : ℚ => a ≤ b)).getD i 0 :=
          sorted_getD_mono hsort (Nat.zero_le i) i.isLt
    _ = listMin l := by
        rw [List.getD_eq_getElem _ 0 i.isLt, ← hgi, List.get_eq_getElem]
  · exact listMin_le hne _ (hperm.mem_iff.mp h0mem)

theorem sorted_last_eq_listMax {l : List ℚ} (hne : l ≠ []) :
    (l.insertionSort (fun a b : ℚ => a ≤ b)).getD
      ((l.insertionSort (fun a b : ℚ => a ≤ b)).length - 1) 0 = listMax l := by
  have hsort : List.Sorted (fun a b : ℚ => a ≤ b)
      (l.insertionSort (fun a b : ℚ => a ≤ b)) := List.sorted_insertionSort _ l
  have hperm : (l.insertionSort (fun a b : ℚ => a ≤ b)).Perm l :=
    List.perm_insertionSort _ l
  have hpos : 0 < (l.insertionSort (fun a b : ℚ => a ≤ b)).length := by
    rw [hperm.length_eq]
    exact List.length_pos.mpr hne
  have hlast : (l.insertionSort (fun a b : ℚ => a ≤ b)).length - 1 <
      (l.insertionSort (fun a b : ℚ => a ≤ b)).length := by omega
  have hlmem : (l.insertionSort (fun a b : ℚ => a ≤ b)).getD
      ((l.insertionSort (fun a b : ℚ => a ≤ b)).length - 1) 0 ∈
      l.insertionSort (fun a b : ℚ => a ≤ b) := by
    rw [List.getD_eq_getElem _ _ hlast]
    exact List.getElem_mem hlast
  apply le_antisymm
  · exact le_listMax hne _ (hperm.mem_iff.mp hlmem)
  · obtain ⟨i, hgi⟩ := List.mem_iff_get.mp (hperm.mem_iff.mpr (listMax_mem hne))
    have hstep : listMax l = (l.insertionSort (fun a b : ℚ => a ≤ b)).getD (↑i) 0 := by
      rw [List.getD_eq_getElem _ 0 i.isLt, ← hgi, List.get_eq_getElem]
    rw [hstep]
    exact sorted_getD_mono hsort (by have := i.isLt; omega) hlast

theorem ratTrunc_eq_floor (q : ℚ) (h : 0 ≤ q) : ratTrunc q = ⌊q⌋ := by
  rw [ratTrunc, Int.tdiv_eq_ediv (Rat.num_nonneg.mpr h) (Int.natCast_nonneg q.den),
    Rat.floor_def]

/-- Claim `C2`: the percentile calculator behaves exactly as specified: 0 on
an empty collection; the minimum for `pct ≤ 0` and the maximum for
`pct ≥ 100` on a non-empty collection; otherwise linear interpolation
between the ascending order statistics at positions `⌊r⌋` and `⌊r⌋+1`
for the fractional rank `r = (pct/100)·(n−1)`. -/
theorem C2_percentile_matches_spec (p : PercentileCalculator) (pct : ℚ) :
    p.Percentile pct = specPercentile (p : List ℚ) pct := by
  have hlen : (List.insertionSort (fun a b : ℚ => a ≤ b) (p : List ℚ)).length
      = (p : List ℚ).length := (List.perm_insertionSort _ _).length_eq
  unfold PercentileCalculator.Percentile specPercentile
    PercentileCalculator.sortedValues
  by_cases h0 : (p : List ℚ).length = 0
  · rw [if_pos (by omega), if_pos h0]
  · rw [if_neg (by omega), if_neg h0]
    have hne : (p : List ℚ) ≠ [] := fun hnil => h0 (by rw [hnil]; rfl)
    by_cases hle0 : pct ≤ 0
    · rw [if_pos hle0, if_pos hle0]
      exact sorted_first_eq_listMin hne
    · by_cases hge100 : 100 ≤ pct
      · rw [if_neg hle0, if_neg hle0, if_pos hge100, if_pos hge100]
        exact sorted_last_eq_listMax hne
      · rw [if_neg hle0, if_neg hle0, if_neg hge100, if_neg hge100]
        dsimp only
        have hpct0 : 0 < pct := not_le.mp hle0
        have hpct100 : pct < 100 := not_le.mp hge100
        have hn1 : 1 ≤ (p : List ℚ).length := by omega
        have hnq : (1:ℚ) ≤ (((p : List ℚ).length : ℕ) : ℚ) := by exact_mod_cast hn1
        have hrank0 : 0 ≤ pct / 100 * ((((p : List ℚ).length : ℕ) : ℚ) - 1) :=
          mul_nonneg (le_of_lt (div_pos hpct0 (by norm_num))) (by linarith)
        rw [hlen, ratTrunc_eq_floor _ hrank0]
        by_cases hone : (p : List ℚ).length = 1
        · have hr0 : pct / 100 * ((((1:ℕ)) : ℚ) - 1) = 0 := by norm_num
          rw [hone, hr0]
          rw [if_pos (by simp)]
          simp
        · have hn2 : 2 ≤ (p : List ℚ).length := by omega
          have hn2q : (2:ℚ) ≤ (((p : List ℚ).length : ℕ) : ℚ) := by exact_mod_cast hn2
          have hrlt : pct / 100 * ((((p : List ℚ).length : ℕ) : ℚ) - 1) <
              (((p : List ℚ).length : ℕ) : ℚ) - 1 := by
            have h1 : pct / 100 < 1 := (div_lt_one (by norm_num)).mpr hpct100
            nlinarith
          have hfl : ⌊pct / 100 * ((((p : List ℚ).length : ℕ) : ℚ) - 1)⌋ <
              (((p : List ℚ).length : ℕ) : ℤ) - 1 := by
            rw [Int.floor_lt]
            push_cast
            linarith
          have hfl0 : 0 ≤ ⌊pct / 100 * ((((p : List ℚ).length : ℕ) : ℚ) - 1)⌋ :=
            Int.floor_nonneg.mpr hrank0
          rw [if_neg (by omega)]
          have hcast : ((⌊pct / 100 * ((((p : List ℚ).length : ℕ) : ℚ) - 1)⌋.toNat : ℕ) : ℚ) =
              ((⌊pct / 100 * ((((p : List ℚ).length : ℕ) : ℚ) - 1)⌋ : ℤ) : ℚ) := by
            have h := Int.toNat_of_nonneg hfl0
            exact_mod_cast congrArg (fun z : ℤ => (z : ℚ)) h
          rw [hcast]

/-- Monotonicity of `Percentile` in the queried percentile, for interior
percentiles on a non-empty collection. -/
theorem Percentile_mono (p : PercentileCalculator) (hne : (p : List ℚ) ≠ [])
    (a b : ℚ) (ha : 0 < a) (hab : a ≤ b) (hb : b < 100) :
    p.Percentile a ≤ p.Percentile b := by
  have hsort := sortedValues_sorted p
  have hlenp : p.sortedValues.length = (p : List ℚ).length :=
    (sortedValues_perm p).length_eq
  have hpos : 0 < (p : List ℚ).length := List.length_pos.mpr hne
  unfold PercentileCalculator.Percentile
  dsimp only
  have h0ne : ¬(p.sortedValues.length = 0) := by omega
  rw [if_neg h0ne, if_neg h0ne]
  rw [if_neg (show ¬(a ≤ 0) from by linarith),
    if_neg (show ¬(100 ≤ a) from by linarith),
    if_neg (show ¬(b ≤ 0) from by linarith),
    if_neg (show ¬(100 ≤ b) from by linarith)]
  set s := p.sortedValues with hs
  set n := s.length with hn
  set ra := a / 100 * ((n : ℚ) - 1) with hra
  set rb := b / 100 * ((n : ℚ) - 1) with hrb
  have hn1 : 1 ≤ n := by omega
  have hn1q : (1 : ℚ) ≤ (n : ℚ) := by exact_mod_cast hn1
  have hra0 : 0 ≤ ra := by
    rw [hra]
    exact mul_nonneg (le_of_lt (div_pos ha (by norm_num))) (by linarith)
  have hrb0 : 0 ≤ rb := by
    rw [hrb]
    exact mul_nonneg (le_of_lt (div_pos (by linarith) (by norm_num))) (by linarith)
  have hrab : ra ≤ rb := by
    rw [hra, hrb]
    have h1 : a / 100 ≤ b / 100 := by linarith
    exact mul_le_mul_of_nonneg_right h1 (by linarith)
  rw [ratTrunc_eq_floor _ hra0, ratTrunc_eq_floor _ hrb0]
  by_cases hone : n = 1
  · rw [if_pos (show n ≤ (⌊ra⌋).toNat + 1 from by omega),
      if_pos (show n ≤ (⌊rb⌋).toNat + 1 from by omega)]
  · have hn2 : 2 ≤ n := by omega
    have hn2q : (2 : ℚ) ≤ (n : ℚ) := by exact_mod_cast hn2
    have hrblt : rb < (n : ℚ) - 1 := by
      rw [hrb]
      have h1 : b / 100 < 1 := (div_lt_one (by norm_num)).mpr hb
      nlinarith
    have hralt : ra < (n : ℚ) - 1 := lt_of_le_of_lt hrab hrblt
    have hfla : ⌊ra⌋ < (n : ℤ) - 1 := by
      rw [Int.floor_lt]
      push_cast
      linarith
    have hflb : ⌊rb⌋ < (n : ℤ) - 1 := by
      rw [Int.floor_lt]
      push_cast
      linarith
    have hfla0 : 0 ≤ ⌊ra⌋ := Int.floor_nonneg.mpr hra0
    have hflb0 : 0 ≤ ⌊rb⌋ := Int.floor_nonneg.mpr hrb0
    rw [if_neg (by omega), if_neg (by omega)]
    set la := (⌊ra⌋).toNat with hla
    set lb := (⌊rb⌋).toNat with hlb
    have hcasta : ((la : ℕ) : ℚ) = ((⌊ra⌋ : ℤ) : ℚ) := by
      rw [hla]
      exact_mod_cast congrArg (fun z : ℤ => (z : ℚ)) (Int.toNat_of_nonneg hfla0)
    have hcastb : ((lb : ℕ) : ℚ) = ((⌊rb⌋ : ℤ) : ℚ) := by
      rw [hlb]
      exact_mod_cast congrArg (fun z : ℤ => (z : ℚ)) (Int.toNat_of_nonneg hflb0)
    have hla1n : la + 1 < n := by omega
    have hlb1n : lb + 1 < n := by omega
    have hlaq : ((la : ℕ) : ℚ) ≤ ra := by rw [hcasta]; exact Int.floor_le ra
    have hlbq : ((lb : ℕ) : ℚ) ≤ rb := by rw [hcastb]; exact Int.floor_le rb
    have hraq : ra < ((la : ℕ) : ℚ) + 1 := by rw [hcasta]; exact Int.lt_floor_add_one ra
    have hDa : 0 ≤ s.getD (la + 1) 0 - s.getD la 0 := by
      have := sorted_getD_mono hsort (Nat.le_succ la) hla1n
      linarith
    have hDb : 0 ≤ s.getD (lb + 1) 0 - s.getD lb 0 := by
      have := sorted_getD_mono hsort (Nat.le_succ lb) hlb1n
      linarith
    have hlab : la ≤ lb := by
      rw [hla, hlb]
      exact Int.toNat_le_toNat (Int.floor_mono hrab)
    by_cases heq : la = lb
    · rw [heq]
      rw [heq] at hlaq hraq
      have hmul := mul_le_mul_of_nonneg_right
        (show ra - ((lb : ℕ) : ℚ) ≤ rb - ((lb : ℕ) : ℚ) from by linarith) hDb
      linarith
    · have hlt : la < lb := by omega
      have h1 : ra - ((la : ℕ) : ℚ) ≤ 1 := by linarith
      have hVa := mul_le_mul_of_nonneg_right h1 hDa
      have hmid : s.getD (la + 1) 0 ≤ s.getD lb 0 :=
        sorted_getD_mono hsort (by omega) (by omega)
      have hVb := mul_nonneg (show (0:ℚ) ≤ rb - ((lb : ℕ) : ℚ) from by linarith) hDb
      nlinarith [hVa, hmid, hVb]

/-- Claim `C7`: for every non-empty value collection the four queried
percentiles are non-decreasing: P50 ≤ P90 ≤ P95 ≤ P99. -/
theorem C7_percentiles_nondecreasing (p : PercentileCalculator)
    (hne : (p : List ℚ) ≠ []) :
    p.GetPercentiles.P50 ≤ p.GetPercentiles.P90 ∧
      p.GetPercentiles.P90 ≤ p.GetPercentiles.P95 ∧
      p.GetPercentiles.P95 ≤ p.GetPercentiles.P99 :=
  ⟨Percentile_mono p hne 50 90 (by norm_num) (by norm_num) (by norm_num),
    Percentile_mono p hne 90 95 (by norm_num) (by norm_num) (by norm_num),
    Percentile_mono p hne 95 99 (by norm_num) (by norm_num) (by norm_num)⟩

theorem C7_percentiles_nondecreasing_witness :
    (([10, 20] : PercentileCalculator) : List ℚ) ≠ [] ∧
      ((PercentileCalculator.GetPercentiles [10, 20]).P50 ≤
          (PercentileCalculator.GetPercentiles [10, 20]).P90 ∧
        (PercentileCalculator.GetPercentiles [10, 20]).P90 ≤
          (PercentileCalculator.GetPercentiles [10, 20]).P95 ∧
        (PercentileCalculator.GetPercentiles [10, 20]).P95 ≤
          (PercentileCalculator.GetPercentiles [10, 20]).P99) :=
  ⟨by decide, C7_percentiles_nondecreasing [10, 20] (by decide)⟩

/-! Section: Engine claims -/

/-- The code's brownout test `float64(rtt.Microseconds())/1000.0 > 200`
holds exactly when the microsecond-truncated RTT exceeds 200000µs. -/
theorem brownout_cond_iff (d : Int) :
    ((goMicroseconds d : ℚ) / 1000 > BrownoutThresholdMs) ↔
      goMicroseconds d > 200000 := by
  rw [BrownoutThresholdMs, gt_iff_lt, gt_iff_lt,
    lt_div_iff₀ (show (0:ℚ) < 1000 from by norm_num)]
  constructor
  · intro h
    have h2 : (200000 : ℚ) < (goMicroseconds d : ℚ) := by linarith
    exact_mod_cast h2
  · intro h
    have h2 : (200000 : ℚ) < (goMicroseconds d : ℚ) := by exact_mod_cast h
    linarith

/-- Claim `C5` (amended): the brownout transition table, with the threshold
taken on the microsecond-truncated RTT as the code computes it: a
successful sample with `rtt.Microseconds() > 200000` increments the
brownout-sample count and, if not already in brownout, increments the
burst count and enters brownout; a successful sample at or below that
exits brownout; a timeout exits brownout unconditionally and never
touches the brownout counters. -/
theorem C5_brownout_transition (e : Engine) (s : Sample) :
    (s.Timeout = true →
      (e.Add s).inBrownout = false ∧
      (e.Add s).brownoutSamples = e.brownoutSamples ∧
      (e.Add s).brownoutBursts = e.brownoutBursts) ∧
    (s.Timeout = false → goMicroseconds s.RTT > 200000 →
      (e.Add s).brownoutSamples = e.brownoutSamples + 1 ∧
      (e.Add s).brownoutBursts =
        (if e.inBrownout then e.brownoutBursts else e.brownoutBursts + 1) ∧
      (e.Add s).inBrownout = true) ∧
    (s.Timeout = false → goMicroseconds s.RTT ≤ 200000 →
      (e.Add s).inBrownout = false ∧
      (e.Add s).brownoutSamples = e.brownoutSamples ∧
      (e.Add s).brownoutBursts = e.brownoutBursts) := by
  refine ⟨fun ht => ?_, fun ht hgt => ?_, fun ht hle => ?_⟩
  · simp only [Engine.Add]
    rw [if_pos ht]
    refine ⟨?_, ?_, ?_⟩ <;>
      simp [apply_ite Engine.inBrownout, apply_ite Engine.brownoutSamples,
        apply_ite Engine.brownoutBursts]
  · have hcq : (goMicroseconds s.RTT : ℚ) / 1000 > BrownoutThresholdMs :=
      (brownout_cond_iff s.RTT).mpr hgt
    simp only [Engine.Add]
    rw [if_neg (show ¬(s.Timeout = true) from by simp [ht])]
    refine ⟨?_, ?_, ?_⟩ <;>
      cases hib : e.inBrownout <;>
      simp [apply_ite Engine.inBrownout, apply_ite Engine.brownoutSamples,
        apply_ite Engine.brownoutBursts, hib, hcq]
  · have hcq : ¬((goMicroseconds s.RTT : ℚ) / 1000 > BrownoutThresholdMs) :=
      fun hcond => absurd ((brownout_cond_iff s.RTT).mp hcond) (not_lt.mpr hle)
    simp only [Engine.Add]
    rw [if_neg (show ¬(s.Timeout = true) from by simp [ht])]
    refine ⟨?_, ?_, ?_⟩ <;>
      simp [apply_ite Engine.inBrownout, apply_ite Engine.brownoutSamples,
        apply_ite Engine.brownoutBursts, hcq]

theorem C5_brownout_transition_witness :
    (((NewEngine 0).Add { Timestamp := 3, Timeout := true }).inBrownout = false ∧
      ((NewEngine 0).Add { Timestamp := 3, Timeout := true }).brownoutSamples =
        (NewEngine 0).brownoutSamples ∧
      ((NewEngine 0).Add { Timestamp := 3, Timeout := true }).brownoutBursts =
        (NewEngine 0).brownoutBursts) ∧
    (((NewEngine 0).Add { RTT := 300000000 }).brownoutSamples =
        (NewEngine 0).brownoutSamples + 1 ∧
      ((NewEngine 0).Add { RTT := 300000000 }).brownoutBursts =
        (if (NewEngine 0).inBrownout then (NewEngine 0).brownoutBursts
         else (NewEngine 0).brownoutBursts + 1) ∧
      ((NewEngine 0).Add { RTT := 300000000 }).inBrownout = true) :=
  ⟨(C5_brownout_transition (NewEngine 0) { Timestamp := 3, Timeout := true }).1 rfl,
    (C5_brownout_transition (NewEngine 0) { RTT := 300000000 }).2.1 rfl (by decide)⟩

/-- Claim `C5` as stated is false: an RTT of 200000500ns is strictly above
200ms, yet the code truncates it to 200000µs and does not classify the
sample as brownout. -/
theorem C5_brownout_counterexample :
    ((200000500 : ℚ) / 1000000 > 200) ∧
      ((NewEngine 0).Add { RTT := 200000500 }).brownoutSamples = 0 ∧
      ((NewEngine 0).Add { RTT := 200000500 }).inBrownout = false := by
  have hcond : ¬((goMicroseconds (200000500 : Int) : ℚ) / 1000 >
      BrownoutThresholdMs) := by
    rw [brownout_cond_iff]
    decide
  have hle2 : (goMicroseconds (200000500 : Int) : ℚ) / 1000 ≤ BrownoutThresholdMs :=
    not_lt.mp hcond
  refine ⟨by norm_num, ?_, ?_⟩ <;>
    · simp only [Engine.Add]
      rw [if_neg (show ¬(({ RTT := 200000500 } : Sample).Timeout = true) from by decide)]
      simp [apply_ite Engine.inBrownout, apply_ite Engine.brownoutSamples, NewEngine,
        hcond, hle2]

/-- Claim `C3` (amended): two `Stats()` calls with no intervening `Add` agree
on every field except the clock-derived `UptimeSeconds` and
`TimeSinceTimeout` (which depend on the instant of the query), and are
fully identical when both queries observe the same clock reading. -/
theorem C3_stats_idempotent_except_clock (e : Engine) (n1 n2 : Int) :
    (e.Stats n1).eraseClock = (e.Stats n2).eraseClock ∧
      ∀ n : Int, e.Stats n = e.Stats n :=
  ⟨rfl, fun _ => rfl⟩

/-- Claim `C3` as stated is false: on the engine that saw one timeout at
instant 5, snapshots taken at instants 10 and 20 differ — both
`UptimeSeconds` and `TimeSinceTimeout` change with the query time. -/
theorem C3_stats_counterexample :
    (((NewEngine 0).Add { Timestamp := 5, Timeout := true }).Stats 10).UptimeSeconds ≠
      (((NewEngine 0).Add { Timestamp := 5, Timeout := true }).Stats 20).UptimeSeconds ∧
    (((NewEngine 0).Add { Timestamp := 5, Timeout := true }).Stats 10).TimeSinceTimeout ≠
      (((NewEngine 0).Add { Timestamp := 5, Timeout := true }).Stats 20).TimeSinceTimeout ∧
    ((NewEngine 0).Add { Timestamp := 5, Timeout := true }).Stats 10 ≠
      ((NewEngine 0).Add { Timestamp := 5, Timeout := true }).Stats 20 := by
  have h1 : (((NewEngine 0).Add { Timestamp := 5, Timeout := true }).Stats 10).UptimeSeconds ≠
      (((NewEngine 0).Add { Timestamp := 5, Timeout := true }).Stats 20).UptimeSeconds := by
    show ((10 - 0 : Int) : ℚ) / 1000000000 ≠ ((20 - 0 : Int) : ℚ) / 1000000000
    norm_num
  have h2 : (((NewEngine 0).Add { Timestamp := 5, Timeout := true }).Stats 10).TimeSinceTimeout ≠
      (((NewEngine 0).Add { Timestamp := 5, Timeout := true }).Stats 20).TimeSinceTimeout := by
    decide
  exact ⟨h1, h2, fun h => h1 (congrArg Stats.UptimeSeconds h)⟩

theorem Add_jitter_fields (e : Engine) (s : Sample) :
    (s.Timeout = true →
      (e.Add s).sumJitter = e.sumJitter ∧
      (e.Add s).jitterCount = e.jitterCount ∧
      (e.Add s).lastRTT = e.lastRTT) ∧
    (s.Timeout = false →
      (e.Add s).lastRTT = s.RTT ∧
      ((e.Add s).sumJitter =
        if e.lastRTT > 0 then e.sumJitter + goAbs (s.RTT - e.lastRTT) else e.sumJitter) ∧
      ((e.Add s).jitterCount =
        if e.lastRTT > 0 then e.jitterCount + 1 else e.jitterCount)) := by
  constructor
  · intro ht
    simp only [Engine.Add]
    rw [if_pos ht]
    exact ⟨rfl, rfl, rfl⟩
  · intro ht
    simp only [Engine.Add]
    rw [if_neg (show ¬(s.Timeout = true) from by simp [ht])]
    refine ⟨rfl, ?_, rfl⟩
    simp only [goAbs]

theorem Add_foldl_jitter :
    ∀ (xs : List Sample) (e : Engine),
      ((xs.foldl Engine.Add e).sumJitter =
        e.sumJitter + (deltasFrom e.lastRTT (successRTTs xs)).sum) ∧
      ((xs.foldl Engine.Add e).jitterCount =
        e.jitterCount + ((deltasFrom e.lastRTT (successRTTs xs)).length : Int)) ∧
      ((xs.foldl Engine.Add e).lastRTT = lastFrom e.lastRTT (successRTTs xs)) := by
  intro xs
  induction xs with
  | nil =>
    intro e
    simp [successRTTs, deltasFrom, lastFrom]
  | cons s t ih =>
    intro e
    rw [List.foldl_cons]
    obtain ⟨htype1, htype2⟩ := Add_jitter_fields e s
    by_cases hto : s.Timeout
    · have hsR : successRTTs (s :: t) = successRTTs t := by
        simp [successRTTs, hto]
      obtain ⟨h1, h2, h3⟩ := htype1 hto
      obtain ⟨i1, i2, i3⟩ := ih (e.Add s)
      rw [hsR, i1, i2, i3, h1, h2, h3]
      exact ⟨rfl, rfl, rfl⟩
    · have hto' : s.Timeout = false := by simp at hto; exact hto
      have hsR : successRTTs (s :: t) = s.RTT :: successRTTs t := by
        simp [successRTTs, hto']
      obtain ⟨h1, h2, h3⟩ := htype2 hto'
      obtain ⟨i1, i2, i3⟩ := ih (e.Add s)
      rw [hsR, i1, i2, i3, h1, h2, h3]
      refine ⟨?_, ?_, rfl⟩
      · rw [deltasFrom]
        by_cases hl : e.lastRTT > 0
        · rw [if_pos hl, if_pos hl]
          simp [List.sum_append]
          ring
        · rw [if_neg hl, if_neg hl]
          simp [List.sum_append]
      · rw [deltasFrom]
        by_cases hl : e.lastRTT > 0
        · rw [if_pos hl, if_pos hl]
          simp [List.length_append]
          ring
        · rw [if_neg hl, if_neg hl]
          simp [List.length_append]

/-- The `Jitter` field of a snapshot. -/
theorem Stats_Jitter (e : Engine) (now : Int) :
    (e.Stats now).Jitter =
      if e.jitterCount > 0 then Int.tdiv e.sumJitter e.jitterCount else 0 := rfl

/-- Claim `C4` (amended): the engine's jitter is the truncated integer mean of
the deltas collected by walking the successful RTTs, where a delta is
collected only when the previous successful RTT is strictly positive (a
0ms previous RTT is treated like "no previous sample"); timeouts
contribute nothing and do not break the chain.  Adding successful RTTs
[10ms, 20ms, 15ms] yields jitter 7.5ms. -/
theorem C4_jitter_mean (start now : Int) (samples : List Sample) :
    (((samples.foldl Engine.Add (NewEngine start)).Stats now).Jitter =
      if (deltasFrom 0 (successRTTs samples)).length = 0 then 0
      else Int.tdiv (deltasFrom 0 (successRTTs samples)).sum
        ((deltasFrom 0 (successRTTs samples)).length : Int)) ∧
    ((([{ RTT := 10000000 }, { RTT := 20000000 }, { RTT := 15000000 }] :
        List Sample).foldl Engine.Add (NewEngine 0)).Stats 0).Jitter = 7500000 := by
  constructor
  · obtain ⟨h1, h2, h3⟩ := Add_foldl_jitter samples (NewEngine start)
    have e0l : (NewEngine start).lastRTT = 0 := rfl
    have e0s : (NewEngine start).sumJitter = 0 := rfl
    have e0c : (NewEngine start).jitterCount = 0 := rfl
    rw [e0l] at h1 h2
    rw [Stats_Jitter, h1, h2, e0s, e0c, zero_add, zero_add]
    by_cases hlen : (deltasFrom 0 (successRTTs samples)).length = 0
    · rw [if_pos hlen, hlen]
      norm_num
    · rw [if_neg hlen,
        if_pos (show (0:Int) < ((deltasFrom 0 (successRTTs samples)).length : Int) from
          by exact_mod_cast Nat.pos_of_ne_zero hlen)]
  · decide

/-- Claim `C4` as stated is false: on successful RTTs [0ms, 10ms, 10ms] the
claim's rule (a delta is accumulated even when the previous successful
RTT is 0ms) predicts jitter 5ms, but the code skips the delta when the
previous RTT is 0 and reports jitter 0. -/
theorem C4_jitter_counterexample :
    Int.tdiv (claimDeltas (successRTTs
        [{ RTT := 0 }, { RTT := 10000000 }, { RTT := 10000000 }])).sum
      ((claimDeltas (successRTTs
        [{ RTT := 0 }, { RTT := 10000000 }, { RTT := 10000000 }])).length : Int) =
      5000000 ∧
    ((([{ RTT := 0 }, { RTT := 10000000 }, { RTT := 10000000 }] :
        List Sample).foldl Engine.Add (NewEngine 0)).Stats 0).Jitter = 0 ∧
    (5000000 : Int) ≠ 0 := by
  refine ⟨?_, ?_, ?_⟩ <;> decide

/-- Claim `C8`: the sub-millisecond Windows reply line parses as a match with
a successful (non-timeout) sample of exactly 1ms. -/
theorem C8_windows_sub_millisecond :
    Windows.ParseLine { seqCounter := 0 } 0
      "Reply from 192.168.1.1: bytes=32 time<1ms TTL=64".data =
    ({ seqCounter := 1 },
      { Timestamp := 0, Sequence := 1, RTT := 1000000, Timeout := false },
      true) := by
  decide

theorem Add_totalSamples (e : Engine) (s : Sample) :
    (e.Add s).totalSamples = e.totalSamples + 1 := by
  simp only [Engine.Add]
  split <;> rfl

/-- Claim `C9`: even with both outbound channels saturated, one distributor
iteration is a total function whose delivery attempts drop the value
(channels unchanged), while the engine is handed the sample exactly
once via `Add` before `Stats` is queried — the snapshot offered to the
metrics channel is the post-`Add` snapshot and the sample is counted in
`TotalSamples`. -/
theorem C9_distributor_nonblocking (st : AppState) (s : Sample) (now : Int) :
    ((App.distributeStep st s now).engine = st.engine.Add s) ∧
    (((App.distributeStep st s now).engine.Stats now).TotalSamples =
      (st.engine.Stats now).TotalSamples + 1) ∧
    (st.uiSamples.cap ≤ st.uiSamples.buf.length →
      (App.distributeStep st s now).uiSamples = st.uiSamples) ∧
    (st.metricsOut.cap ≤ st.metricsOut.buf.length →
      (App.distributeStep st s now).metricsOut = st.metricsOut) ∧
    ((App.distributeStep st s now).metricsOut.buf = st.metricsOut.buf ∨
      (App.distributeStep st s now).metricsOut.buf =
        st.metricsOut.buf ++ [(st.engine.Add s).Stats now]) := by
  refine ⟨rfl, ?_, ?_, ?_, ?_⟩
  · show ((st.engine.Add s).Stats now).TotalSamples =
      (st.engine.Stats now).TotalSamples + 1
    show (st.engine.Add s).totalSamples = st.engine.totalSamples + 1
    exact Add_totalSamples st.engine s
  · intro h
    show st.uiSamples.trySend s = st.uiSamples
    rw [Chan.trySend, if_neg (by omega)]
  · intro h
    show st.metricsOut.trySend ((st.engine.Add s).Stats now) = st.metricsOut
    rw [Chan.trySend, if_neg (by omega)]
  · have hstep : (App.distributeStep st s now).metricsOut =
        st.metricsOut.trySend ((st.engine.Add s).Stats now) := rfl
    rw [hstep, Chan.trySend]
    by_cases hm : st.metricsOut.buf.length < st.metricsOut.cap
    · rw [if_pos hm]
      exact Or.inr rfl
    · rw [if_neg hm]
      exact Or.inl rfl

theorem C9_distributor_nonblocking_witness :
    (App.distributeStep
        { uiSamples := { buf := [{}], cap := 1 }
          metricsOut := { buf := [{}], cap := 1 }
          engine := NewEngine 0
          exporterEnabled := false
          exporterUpdates := [] } {} 0).uiSamples =
      ({ buf := [{}], cap := 1 } : Chan Sample) ∧
    (App.distributeStep
        { uiSamples := { buf := [{}], cap := 1 }
          metricsOut := { buf := [{}], cap := 1 }
          engine := NewEngine 0
          exporterEnabled := false
          exporterUpdates := [] } {} 0).metricsOut =
      ({ buf := [{}], cap := 1 } : Chan Stats) := by
  obtain ⟨h1, h2, h3, h4, h5⟩ := C9_distributor_nonblocking
    { uiSamples := { buf := [{}], cap := 1 }
      metricsOut := { buf := [{}], cap := 1 }
      engine := NewEngine 0
      exporterEnabled := false
      exporterUpdates := [] } {} 0
  exact ⟨h3 (by decide), h4 (by decide)⟩

end Pingheat
